import Mathlib

/-!
A verification development for `pyscal/utils.py`.

Modelling conventions (shallow embedding):
* 64-bit floats are modelled as exact rationals (`ℚ`); float arithmetic is
  modelled as exact rational arithmetic.
* A pandas `Series` is a `List ℚ`; a `DataFrame` is an association list from
  column name to column (`Frame`).  Where the code's behaviour depends on
  NaN (the first entry of `Series.diff()`, NaN relperm values in
  `crosspoint`), NaN is modelled explicitly via `Option`/a leading `false`.
* `round(x, d)` (numpy/pandas rounding to `d` decimals) is modelled as
  rounding `x * 10^d` to the nearest integer; the model rounds halves up
  where numpy rounds halves to even, a difference immaterial to the
  properties proved here.
* Raised Python exceptions are modelled with `Except UtilsError`.
-/

/-- Modelled from the spec: `pyscal.constants.EPSILON` (the module
`pyscal/constants.py` is not part of the sources); the spec describes it as
"a fixed small constant (≈1e-8)". -/
def epsilon : ℚ := 1 / 10 ^ 8

/-- `round(x, d)`: round to `d` decimal places. -/
def roundQ (d : ℕ) (x : ℚ) : ℚ := (round (x * 10 ^ d) : ℤ) / 10 ^ d

/-- `series.diff()` dropping the leading NaN: the list of consecutive
differences `s[i+1] - s[i]`.  Comparisons of the leading NaN entry with any
number are `False` in pandas, which is how the code consumes `diff()`; the
boolean combinators below re-introduce the leading entry explicitly where
the row position matters (`rows_to_be_fixed`). -/
def diffsQ (s : List ℚ) : List ℚ := List.zipWith (fun b a => b - a) s.tail s

/-- `series.min()` for a nonempty column (the code never takes the min of an
empty column on a path where the value is used). -/
def colMin : List ℚ → ℚ
  | [] => 0
  | x :: xs => xs.foldl min x

/-- `series.max()` for a nonempty column. -/
def colMax : List ℚ → ℚ
  | [] => 0
  | x :: xs => xs.foldl max x

-- Decidable equality of `Except` results, for evaluating the embedding on
-- concrete inputs.
deriving instance DecidableEq for Except

/-- One per-column entry of the `monotonocity` dict argument: key `sign`
(required), optional keys `lower`, `upper`, `allowzero`
(cf. the `df2str` docstring). -/
structure MonoSpec where
  sign : ℤ
  lower : Option ℚ := none
  upper : Option ℚ := none
  allowzero : Option Bool := none
deriving DecidableEq, Repr

/-- The typed exceptions raised by `pyscal.utils`. -/
inductive UtilsError where
  /-- `ValueError` from `validate_monotonocity_arg`. -/
  | invalidArg : UtilsError
  /-- `ValueError("Values larger than upper limit in column ...")`. -/
  | rangeUpper : UtilsError
  /-- the `ValueError` raised on a lower-limit violation in `check_limits`
  (its message also reads "larger than upper limit": a message slip in the
  source). -/
  | rangeLower : UtilsError
  /-- `ValueError("Series is not almost monotone")`. -/
  | notAlmostMonotone : UtilsError
  /-- `Exception("Too many iterations for monotonocity fix")`. -/
  | tooManyIterations : UtilsError
  /-- `ValueError("Not possible to make colum monotonically increasing/decreasing")`. -/
  | notPossibleMonotone : UtilsError
deriving DecidableEq, Repr

/-- `np.maximum.accumulate`: running maximum. -/
def runningMax : List ℚ → List ℚ
  | [] => []
  | x :: xs => List.scanl max x xs

/-- `np.minimum.accumulate`: running minimum. -/
def runningMin : List ℚ → List ℚ
  | [] => []
  | x :: xs => List.scanl min x xs

/-- `pyscal.utils.clip_accumulate(series, monotonocity)`: running max
(`sign > 0`) or running min (otherwise), then `Series.clip` with whichever
of `lower`/`upper` is present (pandas `clip` applies the lower bound first,
then the upper bound). -/
def clip_accumulate (series : List ℚ) (m : MonoSpec) : List ℚ :=
  let acc := if m.sign > 0 then runningMax series else runningMin series
  match m.lower, m.upper with
  | some lo, some hi => acc.map fun v => min (max v lo) hi
  | some lo, none => acc.map fun v => max v lo
  | none, some hi => acc.map fun v => min v hi
  | none, none => acc

/-- `Series.clip` on a single value, for stating head-preservation facts. -/
def clipVal (m : MonoSpec) (v : ℚ) : ℚ :=
  match m.lower, m.upper with
  | some lo, some hi => min (max v lo) hi
  | some lo, none => max v lo
  | none, some hi => min v hi
  | none, none => v

/-- `pyscal.utils.check_limits(series, monotonocity)`: empty columns pass;
otherwise raise if any value is strictly above `upper`, then raise if any
value is strictly below `lower`. -/
def check_limits (series : List ℚ) (m : MonoSpec) : Except UtilsError Unit :=
  if series.isEmpty then .ok ()
  else if (match m.upper with
           | some u => series.any fun v => decide (v > u)
           | none => false) then .error .rangeUpper
  else if (match m.lower with
           | some lo => series.any fun v => decide (v < lo)
           | none => false) then .error .rangeLower
  else .ok ()

/-- `pyscal.utils.rows_to_be_fixed(series, column_monotonocity, digits, sign)`.
The leading `false` models the NaN first entry of `diff()`: NaN compared to
any number is `False`.  The bound exemptions compare the raw (un-rerounded)
series against `upper - accuracy` / `lower + accuracy`, as in the source. -/
def rows_to_be_fixed (series : List ℚ) (m : MonoSpec) (digits : ℕ) (sign : ℤ) :
    List Bool :=
  let accuracy : ℚ := 1 / 10 ^ digits - epsilon
  let r := series.map (roundQ (digits + 1))
  let constants : List Bool :=
    match series with
    | [] => []
    | _ :: _ =>
      false :: ((diffsQ r).map fun d =>
        if sign > 0 then decide (d < accuracy) else decide (d > -accuracy))
  let constants : List Bool :=
    match m.upper with
    | some u => constants.zipWith (fun c v => c && decide (v < u - accuracy)) series
    | none => constants
  match m.lower with
  | some lo => constants.zipWith (fun c v => c && decide (v > lo + accuracy)) series
  | none => constants

/-- `pyscal.utils.check_almost_monotone(series, digits, sign)`.
`series.diff().min() < -allowance` is modelled as "some consecutive
difference is `< -allowance`" (pandas `min` skips the leading NaN, and the
comparison is `False` when there are no differences at all).
`digits - 1` is truncated ℕ subtraction; pyscal always calls with
`digits ≥ 1` (default 7). -/
def check_almost_monotone (series : List ℚ) (digits : ℕ) (sign : ℤ) :
    Except UtilsError Unit :=
  let allowance : ℚ := 1 / 10 ^ (digits - 1)
  if sign > 0 then
    if (diffsQ series).any (fun d => decide (d < -allowance)) then
      .error .notAlmostMonotone
    else .ok ()
  else
    if (diffsQ series).any (fun d => decide (d > allowance)) then
      .error .notAlmostMonotone
    else .ok ()

/-- The `allowzero` skip test inside `modify_dframe_monotonocity`:
the key is present, `series.abs().max() < accuracy`, and the value is
`True`.  (For an empty column pandas gives `NaN < accuracy = False`.) -/
def allowzero_skip (series : List ℚ) (m : MonoSpec) (digits : ℕ) : Bool :=
  match m.allowzero, (series.map (fun v => |v|)).max? with
  | some az, some mx => decide (mx < 1 / 10 ^ digits - epsilon) && az
  | _, _ => false

/-- The nudge statement
`dframe.loc[constants, col] = dframe.loc[constants, col] + sign / 10.0 ** digits - epsilon`. -/
def nudge (series : List ℚ) (mask : List Bool) (digits : ℕ) (sign : ℤ) : List ℚ :=
  List.zipWith
    (fun v c => if c then v + (sign : ℚ) / 10 ^ digits - epsilon else v)
    series mask

/-- The `while constants.any()` loop of `modify_dframe_monotonocity`, for one
column.  The source counts iterations upward and raises
`"Too many iterations for monotonocity fix"` once
`iterations > 2 * len(dframe[col])` (the column length is invariant: `nudge`
and `clip_accumulate` preserve it); here the same budget counts downward as
`fuel`, initially `2 * len(series)`, so that
`iterations = 2 * len(series) - fuel` and the raise happens exactly when the
budget would be exceeded.  The returned `ℕ` is the number of executed loop
bodies, i.e. the source's final `iterations` value. -/
def fix_loop (m : MonoSpec) (digits : ℕ) :
    (fuel : ℕ) → (iterations : ℕ) → List ℚ → Except UtilsError (List ℚ × ℕ)
  | fuel, iterations, series =>
    let constants := rows_to_be_fixed series m digits m.sign
    if constants.any id then
      match fuel with
      | 0 => .error .tooManyIterations
      | fuel + 1 =>
        fix_loop m digits fuel (iterations + 1)
          (clip_accumulate (nudge series constants digits m.sign) m)
    else .ok (series, iterations)

/-- The body of the per-column `for col in monotonocity` modify loop of
`modify_dframe_monotonocity`: the `allowzero` skip, the fixing loop (the
5%-of-rows diagnostic is a log line, not modelled), and the final
strict-monotonicity check at `digits` precision. -/
def fix_column (series : List ℚ) (m : MonoSpec) (digits : ℕ) :
    Except UtilsError (List ℚ) :=
  if allowzero_skip series m digits then .ok series
  else
    match fix_loop m digits (2 * series.length) 0 series with
    | .error e => .error e
    | .ok (s, _its) =>
      let allowance : ℚ := 1 / 10 ^ digits
      if m.sign > 0 then
        if (diffsQ (s.map (roundQ digits))).any (fun d => decide (d < -allowance)) then
          .error .notPossibleMonotone
        else .ok s
      else
        if (diffsQ (s.map (roundQ digits))).any (fun d => decide (d > allowance)) then
          .error .notPossibleMonotone
        else .ok s

/-- A pandas `DataFrame`: an association list from column name to column.
Column names are unique (pandas column index). -/
abbrev Frame := List (String × List ℚ)

/-- `dframe.columns`. -/
def frameNames (f : Frame) : List String := f.map Prod.fst

/-- `dframe[c]` (defaulting to the empty column; every access below is
guarded by `validate_monotonocity_arg`, which errors on missing columns). -/
def frameCol : Frame → String → List ℚ
  | [], _ => []
  | (n, col) :: rest, c => if n = c then col else frameCol rest c

/-- `dframe[c] = v` for an existing column `c`. -/
def frameSet : Frame → String → List ℚ → Frame
  | [], _, _ => []
  | (n, col) :: rest, c, v =>
    if n = c then (n, v) :: frameSet rest c v else (n, col) :: frameSet rest c v

/-- `dframe.round(d)`. -/
def roundFrame (d : ℕ) (f : Frame) : Frame :=
  f.map fun p => (p.1, p.2.map (roundQ d))

/-- `pyscal.utils.validate_monotonocity_arg(monotonocity, dframe_colnames)`.
The dict-shape checks (unknown keys, missing `sign`, non-numeric bounds,
non-boolean `allowzero`) are discharged by the type of `MonoSpec`; what
remains per column is membership of the column name and `abs(sign) > 1`. -/
def validate_monotonocity_arg (mono : List (String × MonoSpec))
    (colnames : List String) : Except UtilsError Unit :=
  match mono with
  | [] => .ok ()
  | (col, m) :: rest =>
    if col ∉ colnames then .error .invalidArg
    else if |m.sign| > 1 then .error .invalidArg
    else validate_monotonocity_arg rest colnames

/-- The "Prepare and check columns" loop of `modify_dframe_monotonocity`:
per column, `check_almost_monotone` then `check_limits` (the
`astype(float)` coercion is the identity on the exact-rational value
model). -/
def prepare_loop (f : Frame) (digits : ℕ) :
    List (String × MonoSpec) → Except UtilsError Unit
  | [] => .ok ()
  | (col, m) :: rest =>
    match check_almost_monotone (frameCol f col) digits m.sign with
    | .error e => .error e
    | .ok _ =>
      match check_limits (frameCol f col) m with
      | .error e => .error e
      | .ok _ => prepare_loop f digits rest

/-- The local Python variable `dframe` inside `modify_dframe_monotonocity` /
`df2str`: before the rebinding `dframe = dframe.round(digits + 1)` it is a
view aliasing the caller's frame (cf. the source comment: "Wateroil.SWOF()
(and similar) supply a column view of the internal wateroil.table
dataframe"); pandas `round` allocates a fresh frame, after which the
binding holds a private copy. -/
inductive Binding where
  | view : Binding
  | copy : Frame → Binding
deriving DecidableEq

/-- The state of a `modify_dframe_monotonocity` / `df2str` call: the
caller's frame plus the local `dframe` binding. -/
structure DfState where
  caller : Frame
  binding : Binding
deriving DecidableEq

/-- Reading through the local binding. -/
def DfState.deref : DfState → Frame
  | ⟨c, .view⟩ => c
  | ⟨_, .copy f⟩ => f

/-- An in-place column write (`dframe.loc[...] = ...` / `dframe[col] = ...`)
through the local binding: writing through a view would mutate the caller's
frame; writing through a copy mutates only the copy. -/
def DfState.write (st : DfState) (col : String) (v : List ℚ) : DfState :=
  match st with
  | ⟨c, .view⟩ => ⟨frameSet c col v, .view⟩
  | ⟨c, .copy f⟩ => ⟨c, .copy (frameSet f col v)⟩

/-- The "Modify data for monotonocity" loop of
`modify_dframe_monotonocity`, at the state level: each column's in-place
writes (the nudges, and `dframe[col] = clip_accumulate(...)`) go through
the local binding.  On a raise the state at that point is returned
alongside the error. -/
def modify_loop_st (digits : ℕ) :
    DfState → List (String × MonoSpec) → DfState × Except UtilsError Unit
  | st, [] => (st, .ok ())
  | st, (col, m) :: rest =>
    match fix_column (frameCol st.deref col) m digits with
    | .error e => (st, .error e)
    | .ok s => modify_loop_st digits (st.write col s) rest

/-- `pyscal.utils.modify_dframe_monotonocity(dframe, monotonocity, digits)`
at the state level: validate the argument, rebind `dframe` to the fresh
frame `dframe.round(digits + 1)` (detaching from the caller), run the
prepare checks, run the modify loop, and return the modified copy. -/
def modify_st (st : DfState) (mono : List (String × MonoSpec)) (digits : ℕ) :
    DfState × Except UtilsError Frame :=
  match validate_monotonocity_arg mono (frameNames st.deref) with
  | .error e => (st, .error e)
  | .ok _ =>
    match prepare_loop (roundFrame (digits + 1) st.deref) digits mono with
    | .error e => (⟨st.caller, .copy (roundFrame (digits + 1) st.deref)⟩, .error e)
    | .ok _ =>
      match modify_loop_st digits
          ⟨st.caller, .copy (roundFrame (digits + 1) st.deref)⟩ mono with
      | (st2, .error e) => (st2, .error e)
      | (st2, .ok _) => (st2, .ok st2.deref)

/-- `modify_dframe_monotonocity` as a function from the caller's frame to
the returned frame (the caller's frame itself is untouched; see
`modify_st`). -/
def modify_dframe_monotonocity (dframe : Frame) (mono : List (String × MonoSpec))
    (digits : ℕ) : Except UtilsError Frame :=
  (modify_st ⟨dframe, Binding.view⟩ mono digits).2

/-- `pyscal.utils.df2str(dframe, digits, roundlevel, monotonocity)` at the
state level.  The deprecated `monotone_column`/`monotone_direction` path
only constructs a dict and is omitted; the `to_csv` text rendering consumes
`dframe.round(roundlevel)` read-only, so the model returns that rounded
frame as the output's data content. -/
def df2str_st (st : DfState) (digits roundlevel : ℕ)
    (mono : Option (List (String × MonoSpec))) :
    DfState × Except UtilsError Frame :=
  match mono with
  | none => (st, .ok (roundFrame roundlevel st.deref))
  | some ms =>
    match modify_st st ms digits with
    | (st', .error e) => (st', .error e)
    | (st', .ok res) => (⟨st'.caller, .copy res⟩, .ok (roundFrame roundlevel res))

/-- Insert a point into a list sorted by abscissa (stable). -/
def insertByFst (x : ℚ × ℚ) : List (ℚ × ℚ) → List (ℚ × ℚ)
  | [] => [x]
  | y :: ys => if x.1 ≤ y.1 then x :: y :: ys else y :: insertByFst x ys

/-- Sort `(x, y)` points by abscissa: `scipy.interpolate.interp1d` with the
default `assume_sorted=False` sorts its input points internally. -/
def sortByFst (l : List (ℚ × ℚ)) : List (ℚ × ℚ) := l.foldr insertByFst []

/-- Evaluation of a piecewise-linear interpolant over abscissa-sorted
points, left endpoint carried along; above the last abscissa the
above-range fill value is returned. -/
def interpGo (p : ℚ × ℚ) (rest : List (ℚ × ℚ)) (fillHigh : ℚ) (x : ℚ) : ℚ :=
  match rest with
  | [] => if p.1 < x then fillHigh else p.2
  | q :: rest' =>
    if x ≤ q.1 then p.2 + (x - p.1) * (q.2 - p.2) / (q.1 - p.1)
    else interpGo q rest' fillHigh x

/-- `scipy.interpolate.interp1d(xs, ys, kind="linear", bounds_error=False,
fill_value=(fillLow, fillHigh))` applied to one argument: sort the points by
abscissa, return `fillLow` strictly below the abscissa range and `fillHigh`
strictly above it, linear interpolation in between (abscissae are distinct
in all uses: the independent saturation column is unique and sorted). -/
def interp1d (pts : List (ℚ × ℚ)) (fillLow fillHigh : ℚ) (x : ℚ) : ℚ :=
  match sortByFst pts with
  | [] => fillLow
  | p :: rest => if x < p.1 then fillLow else interpGo p rest fillHigh x

/-- The data contract of a `pyscal.WaterOil` collaborator object consumed
by `utils`: the table columns `sw`, `krw`, `krow`, optionally `pc`, the
scalar saturation endpoints, and the tag. -/
structure WaterOil where
  sw : List ℚ
  krw : List ℚ
  krow : List ℚ
  pc : Option (List ℚ)
  swl : ℚ
  swcr : ℚ
  sorw : ℚ
  tag : String
deriving DecidableEq

/-- The data contract of a `pyscal.GasOil` collaborator object. -/
structure GasOil where
  sg : List ℚ
  krg : List ℚ
  krog : List ℚ
  pc : Option (List ℚ)
  swl : ℚ
  sgcr : ℚ
  sorg : ℚ
  tag : String
deriving DecidableEq

/-- `pyscal.utils.normalize_pc(curve)` after the saturation-column dispatch
(`sw` for WaterOil, `sg` for GasOil): no `pc` column gives the constant-zero
lambda; otherwise `interp1d` over `(sat, pc)` with
`fill_value=(max_pc, min_pc)`, evaluated at
`sx_fn(sxn) = min(sat) + sxn * (max(sat) - min(sat))`. -/
def normalize_pc_aux (sat : List ℚ) (pcCol : Option (List ℚ)) : ℚ → ℚ :=
  match pcCol with
  | none => fun _sxn => 0
  | some pc =>
    let min_pc := colMin pc
    let max_pc := colMax pc
    let min_sx := colMin sat
    let max_sx := colMax sat
    fun sxn => interp1d (sat.zip pc) max_pc min_pc (min_sx + sxn * (max_sx - min_sx))

/-- `normalize_pc` on a WaterOil (saturation column `sw`). -/
def normalize_pc_wo (curve : WaterOil) : ℚ → ℚ :=
  normalize_pc_aux curve.sw curve.pc

/-- `normalize_pc` on a GasOil (saturation column `sg`). -/
def normalize_pc_go (curve : GasOil) : ℚ → ℚ :=
  normalize_pc_aux curve.sg curve.pc

/-- The `krw_fn` lambda of `pyscal.utils.normalize_nonlinpart_wo`:
`krw_interp(curve.swcr + swn * (1 - curve.swcr - curve.sorw))` where
`krw_interp = interp1d(sw, krw, fill_value=(0.0, krw.max()))`. -/
def normalize_nonlinpart_wo_krw (curve : WaterOil) (swn : ℚ) : ℚ :=
  interp1d (curve.sw.zip curve.krw) 0 (colMax curve.krw)
    (curve.swcr + swn * (1 - curve.swcr - curve.sorw))

/-- The `kro_fn` lambda of `normalize_nonlinpart_wo`:
`kro_interp(curve.sorw + son * (1 - curve.sorw - curve.swl))` where
`kro_interp = interp1d(1 - sw, krow, fill_value=(0.0, krow.max()))`. -/
def normalize_nonlinpart_wo_kro (curve : WaterOil) (son : ℚ) : ℚ :=
  interp1d ((curve.sw.map (fun s => 1 - s)).zip curve.krow) 0 (colMax curve.krow)
    (curve.sorw + son * (1 - curve.sorw - curve.swl))

/-- The `krg_fn` lambda of `pyscal.utils.normalize_nonlinpart_go`. -/
def normalize_nonlinpart_go_krg (curve : GasOil) (sgn : ℚ) : ℚ :=
  interp1d (curve.sg.zip curve.krg) 0 (colMax curve.krg)
    (curve.sgcr + sgn * (1 - curve.swl - curve.sgcr - curve.sorg))

/-- The `kro_fn` lambda of `normalize_nonlinpart_go`. -/
def normalize_nonlinpart_go_kro (curve : GasOil) (son : ℚ) : ℚ :=
  interp1d ((curve.sg.map (fun s => 1 - s)).zip curve.krog) 0 (colMax curve.krog)
    (curve.swl + curve.sorg + son * (1 - curve.swl - curve.sorg))

/-- The `weighted_value` closure of `interpolate_wo` / `interpolate_go`:
`a * (1.0 - parameter) + b * parameter`. -/
def weighted_value (parameter a b : ℚ) : ℚ :=
  a * (1 - parameter) + b * parameter

/-- The scalar endpoints blended by `interpolate_wo`. -/
structure WOEndpoints where
  swl : ℚ
  swcr : ℚ
  sorw : ℚ
  krwmax : ℚ
  krwend : ℚ
  kroend : ℚ
deriving DecidableEq

/-- The scalar endpoints blended by `interpolate_go`. -/
structure GOEndpoints where
  swl : ℚ
  sgcr : ℚ
  sorg : ℚ
  krgmax : ℚ
  krgend : ℚ
  kroend : ℚ
deriving DecidableEq

/-- The endpoint-blending step of `pyscal.utils.interpolate_wo` (the
`*_new` scalars handed to the `pyscal.WaterOil` factory and to the
`set_endpoints_linearpart_*` calls). -/
def interpolate_wo_endpoints (lo hi : WaterOil) (parameter : ℚ) : WOEndpoints :=
  { swl := weighted_value parameter lo.swl hi.swl
    swcr := weighted_value parameter lo.swcr hi.swcr
    sorw := weighted_value parameter lo.sorw hi.sorw
    krwmax := weighted_value parameter (colMax lo.krw) (colMax hi.krw)
    krwend := weighted_value parameter
      (normalize_nonlinpart_wo_krw lo 1) (normalize_nonlinpart_wo_krw hi 1)
    kroend := weighted_value parameter
      (normalize_nonlinpart_wo_kro lo 1) (normalize_nonlinpart_wo_kro hi 1) }

/-- The same scalar endpoints read off a single WaterOil curve. -/
def wo_endpoints (c : WaterOil) : WOEndpoints :=
  { swl := c.swl
    swcr := c.swcr
    sorw := c.sorw
    krwmax := colMax c.krw
    krwend := normalize_nonlinpart_wo_krw c 1
    kroend := normalize_nonlinpart_wo_kro c 1 }

/-- The endpoint-blending step of `pyscal.utils.interpolate_go`. -/
def interpolate_go_endpoints (lo hi : GasOil) (parameter : ℚ) : GOEndpoints :=
  { swl := weighted_value parameter lo.swl hi.swl
    sgcr := weighted_value parameter lo.sgcr hi.sgcr
    sorg := weighted_value parameter lo.sorg hi.sorg
    krgmax := weighted_value parameter (colMax lo.krg) (colMax hi.krg)
    krgend := weighted_value parameter
      (normalize_nonlinpart_go_krg lo 1) (normalize_nonlinpart_go_krg hi 1)
    kroend := weighted_value parameter
      (normalize_nonlinpart_go_kro lo 1) (normalize_nonlinpart_go_kro hi 1) }

/-- The same scalar endpoints read off a single GasOil curve. -/
def go_endpoints (c : GasOil) : GOEndpoints :=
  { swl := c.swl
    sgcr := c.sgcr
    sorg := c.sorg
    krgmax := colMax c.krg
    krgend := normalize_nonlinpart_go_krg c 1
    kroend := normalize_nonlinpart_go_kro c 1 }

/-- `pyscal.utils._interpolate_tags(low, high, parameter, tag)`.  Curve
tags are strings (the pyscal objects default the tag to a string);
Python truthiness of a string is nonemptiness.  `parameter` stands for the
`str`-rendering of the float parameter inserted by `format`. -/
def interpolate_tags (lowTag highTag : String) (parameter : String)
    (tag : Option String) : String :=
  match tag with
  | none =>
    if lowTag = highTag then
      if lowTag ≠ "" then "Interpolated to " ++ parameter ++ " in " ++ lowTag
      else "Interpolated to " ++ parameter
    else
      "Interpolated to " ++ parameter ++ " between " ++ lowTag ++ " and " ++ highTag
  | some t => t

/-- `np.isclose(a, 0.0)`: `|a| ≤ atol + rtol * |0| = 1e-8`. -/
def iscloseZero (a : ℚ) : Bool := decide (|a| ≤ 1 / 10 ^ 8)

/-- NaN-propagating subtraction of two float cells. -/
def optSub (a b : Option ℚ) : Option ℚ :=
  match a, b with
  | some x, some y => some (x - y)
  | _, _ => none

/-- The `krdiff` column of `crosspoint`:
`dframe[kr1col] - dframe[kr2col]`, elementwise, NaN-propagating. -/
def krdiffCol (kr1 kr2 : List (Option ℚ)) : List (Option ℚ) :=
  List.zipWith optSub kr1 kr2

/-- `DataFrame.interpolate(method="slinear")` applied to one missing value:
pandas hands the valid `(index, value)` points to
`scipy.interpolate.interp1d` with `bounds_error=False` and no fill value, so
a query strictly outside the sorted abscissa range stays NaN (`none`);
inside the range it is linear interpolation. -/
def pandasInterpAt (pts : List (ℚ × ℚ)) (x : ℚ) : Option ℚ :=
  match sortByFst pts with
  | [] => none
  | p :: rest =>
    if x < p.1 then none
    else if (rest.getLastD p).1 < x then none
    else some (interpGo p rest 0 x)

/-- `pyscal.utils.crosspoint(dframe, satcol, kr1col, kr2col)`.  Column
entries are `Option ℚ` (`none` = NaN).  Steps, as in the source: build
`krdiff = kr1 - kr2`; append a row with `krdiff = 0.0` and NaN saturation;
if the `krdiff` index contains NaN, warn and return `-1`; otherwise
interpolate the NaN saturation entries linearly in the `krdiff` index
(pandas fills a trailing NaN from the valid points, leaving it NaN when the
query is outside their abscissa range; theorems below assume the original
saturation entries are valid, so only the appended row is filled); finally
return the saturation of the first row whose index is `np.isclose` to 0 —
the appended row, unless an original row's `krdiff` is itself within
`1e-8` of zero.  The interpolate-and-select phase, after the NaN guard, on
the extracted `krdiff` values: -/
def crosspointInterp (dkr : List ℚ) (sat : List (Option ℚ)) : Option ℚ :=
  let idx : List ℚ := dkr ++ [0]
  let satExt : List (Option ℚ) := sat ++ [none]
  let valid : List (ℚ × ℚ) :=
    (idx.zip satExt).filterMap (fun p => p.2.map (fun v => (p.1, v)))
  let interpolated : List (Option ℚ) :=
    (idx.zip satExt).map (fun p =>
      match p.2 with
      | some v => some v
      | none => pandasInterpAt valid p.1)
  match (idx.zip interpolated).find? (fun p => iscloseZero p.1) with
  | some p => p.2
  | none => none

/-- `pyscal.utils.crosspoint`: the NaN guard (`-1` with a warning), then
the interpolate-and-select phase. -/
def crosspoint (sat kr1 kr2 : List (Option ℚ)) : Option ℚ :=
  let krdiff : List (Option ℚ) := krdiffCol kr1 kr2
  if (krdiff ++ [some 0]).any (fun d => d.isNone) then some (-1)
  else crosspointInterp (krdiff.map (fun (d : Option ℚ) => d.getD 0)) sat

/-! ### Helper lemmas -/

theorem scanl_head? (f : ℚ → ℚ → ℚ) (b : ℚ) (l : List ℚ) :
    (List.scanl f b l).head? = some b := by
  cases l <;> simp [List.scanl_nil, List.scanl_cons]

theorem chain'_scanl (f : ℚ → ℚ → ℚ) (r : ℚ → ℚ → Prop)
    (hf : ∀ a b, r a (f a b)) :
    ∀ (l : List ℚ) (b : ℚ), List.Chain' r (List.scanl f b l) := by
  intro l
  induction l with
  | nil => intro b; simp [List.scanl_nil]
  | cons a l ih =>
    intro b
    rw [List.scanl_cons, List.singleton_append, List.chain'_cons']
    refine ⟨fun y hy => ?_, ih (f b a)⟩
    rw [scanl_head?] at hy
    simp only [Option.mem_def, Option.some.injEq] at hy
    subst hy
    exact hf b a

theorem chain'_runningMax (l : List ℚ) : List.Chain' (· ≤ ·) (runningMax l) := by
  cases l with
  | nil => simp [runningMax]
  | cons x xs => exact chain'_scanl max (· ≤ ·) (fun a b => le_max_left a b) xs x

theorem chain'_runningMin (l : List ℚ) :
    List.Chain' (fun a b : ℚ => b ≤ a) (runningMin l) := by
  cases l with
  | nil => simp [runningMin]
  | cons x xs => exact chain'_scanl min _ (fun a b => min_le_left a b) xs x

theorem chain'_map_of_rel (r : ℚ → ℚ → Prop) (g : ℚ → ℚ)
    (hg : ∀ a b, r a b → r (g a) (g b)) {l : List ℚ}
    (h : List.Chain' r l) : List.Chain' r (l.map g) :=
  (List.chain'_map g).2 (h.imp hg)

/-! ### C3 -/

/-- C3: `clip_accumulate` returns a non-decreasing column when `sign > 0`
and a non-increasing one when `sign < 0`, and every returned value respects
whichever of the `lower`/`upper` bounds are present (the two bounds, when
both given, satisfy the data-model invariant `lower ≤ upper`); the input is
not consumed destructively (the model is a pure function mirroring
`np.maximum.accumulate`, which allocates a fresh array). -/
theorem clip_accumulate_monotone_within_bounds (series : List ℚ) (m : MonoSpec)
    (hb : ∀ lo hi, m.lower = some lo → m.upper = some hi → lo ≤ hi) :
    (0 < m.sign → List.Chain' (· ≤ ·) (clip_accumulate series m)) ∧
    (m.sign < 0 → List.Chain' (fun a b : ℚ => b ≤ a) (clip_accumulate series m)) ∧
    ∀ v ∈ clip_accumulate series m,
      (∀ lo, m.lower = some lo → lo ≤ v) ∧ ∀ hi, m.upper = some hi → v ≤ hi := by
  obtain ⟨sign, lower, upper, az⟩ := m
  have hchain : ∀ g : ℚ → ℚ, (∀ a b : ℚ, a ≤ b → g a ≤ g b) →
      (0 < sign → List.Chain' (· ≤ ·)
        ((if sign > 0 then runningMax series else runningMin series).map g)) ∧
      (sign < 0 → List.Chain' (fun a b : ℚ => b ≤ a)
        ((if sign > 0 then runningMax series else runningMin series).map g)) := by
    intro g hg
    constructor
    · intro hs
      rw [if_pos hs]
      exact chain'_map_of_rel _ g hg (chain'_runningMax series)
    · intro hs
      rw [if_neg (by omega : ¬ sign > 0)]
      exact chain'_map_of_rel _ g (fun a b h => hg b a h) (chain'_runningMin series)
  rcases lower with _ | lo <;> rcases upper with _ | hi <;>
    simp only [clip_accumulate]
  · refine ⟨?_, ?_, ?_⟩
    · intro hs; rw [if_pos hs]; exact chain'_runningMax series
    · intro hs; rw [if_neg (by omega : ¬ sign > 0)]; exact chain'_runningMin series
    · intro v _
      exact ⟨fun lo' h => Option.noConfusion h, fun hi' h => Option.noConfusion h⟩
  · refine ⟨(hchain _ fun a b h => min_le_min h le_rfl).1,
      (hchain _ fun a b h => min_le_min h le_rfl).2, ?_⟩
    intro v hv
    obtain ⟨w, _, rfl⟩ := List.mem_map.1 hv
    refine ⟨fun lo' h => Option.noConfusion h, fun hi' h => ?_⟩
    obtain rfl := Option.some.inj h
    exact min_le_right w hi
  · refine ⟨(hchain _ fun a b h => max_le_max h le_rfl).1,
      (hchain _ fun a b h => max_le_max h le_rfl).2, ?_⟩
    intro v hv
    obtain ⟨w, _, rfl⟩ := List.mem_map.1 hv
    refine ⟨fun lo' h => ?_, fun hi' h => Option.noConfusion h⟩
    obtain rfl := Option.some.inj h
    exact le_max_right w lo
  · refine ⟨(hchain _ fun a b h => min_le_min (max_le_max h le_rfl) le_rfl).1,
      (hchain _ fun a b h => min_le_min (max_le_max h le_rfl) le_rfl).2, ?_⟩
    intro v hv
    obtain ⟨w, _, rfl⟩ := List.mem_map.1 hv
    refine ⟨fun lo' h => ?_, fun hi' h => ?_⟩
    · obtain rfl := Option.some.inj h
      exact le_min (le_max_right w lo) (hb lo hi rfl rfl)
    · obtain rfl := Option.some.inj h
      exact min_le_right _ hi

/-! ### C4 -/

/-- C4: `check_limits` fails (with a range error) iff some value of the
column is strictly above the given `upper` or strictly below the given
`lower`; equality with a bound never triggers the error, success returns
nothing (`Unit`), and an empty column always passes. -/
theorem check_limits_error_iff (series : List ℚ) (m : MonoSpec) :
    ((∃ e, check_limits series m = .error e) ↔
      (∃ u, m.upper = some u ∧ ∃ v ∈ series, u < v) ∨
        ∃ lo, m.lower = some lo ∧ ∃ v ∈ series, v < lo) ∧
    (series = [] → check_limits series m = .ok ()) := by
  obtain ⟨sign, lower, upper, az⟩ := m
  by_cases hemp : series.isEmpty = true
  · obtain rfl : series = [] := by
      cases series with
      | nil => rfl
      | cons a l => simp [List.isEmpty] at hemp
    simp [check_limits]
  · have hne : series.isEmpty = false := by
      cases h : series.isEmpty with
      | false => rfl
      | true => exact absurd h hemp
    refine ⟨?_, fun h => by subst h; simp [List.isEmpty] at hne⟩
    rcases upper with _ | u <;> rcases lower with _ | lo
    · simp [check_limits, hne]
    · have e2 : (∃ v ∈ series, v < lo) ↔ (series.any fun v => decide (v < lo)) = true := by
        simp [List.any_eq_true]
      by_cases h2 : (series.any fun v => decide (v < lo)) = true <;>
        simp [check_limits, hne, h2, e2]
    · have e1 : (∃ v ∈ series, u < v) ↔ (series.any fun v => decide (v > u)) = true := by
        simp [List.any_eq_true]
      by_cases h1 : (series.any fun v => decide (v > u)) = true <;>
        simp [check_limits, hne, h1, e1]
    · have e1 : (∃ v ∈ series, u < v) ↔ (series.any fun v => decide (v > u)) = true := by
        simp [List.any_eq_true]
      have e2 : (∃ v ∈ series, v < lo) ↔ (series.any fun v => decide (v < lo)) = true := by
        simp [List.any_eq_true]
      by_cases h1 : (series.any fun v => decide (v > u)) = true <;>
        by_cases h2 : (series.any fun v => decide (v < lo)) = true <;>
        simp [check_limits, hne, h1, h2, e1, e2]

/-- Witness for C3 at a concrete input. -/
theorem clip_accumulate_monotone_within_bounds_witness :
    (∀ lo hi : ℚ, (⟨1, some 0, some (5/2), none⟩ : MonoSpec).lower = some lo →
      (⟨1, some 0, some (5/2), none⟩ : MonoSpec).upper = some hi → lo ≤ hi) ∧
    List.Chain' (· ≤ ·) (clip_accumulate [3, 1, 2] ⟨1, some 0, some (5/2), none⟩) := by
  have hb : ∀ lo hi : ℚ, (⟨1, some 0, some (5/2), none⟩ : MonoSpec).lower = some lo →
      (⟨1, some 0, some (5/2), none⟩ : MonoSpec).upper = some hi → lo ≤ hi := by
    intro lo hi h1 h2
    obtain rfl := Option.some.inj h1
    obtain rfl := Option.some.inj h2
    norm_num
  exact ⟨hb,
    (clip_accumulate_monotone_within_bounds [3, 1, 2] ⟨1, some 0, some (5/2), none⟩ hb).1
      (by norm_num)⟩

/-! ### C8 -/

/-- C8: the tag attached by the interpolators: an explicitly supplied tag
(including the empty string) is returned verbatim; otherwise
"Interpolated to {t} in {tag}" when both inputs carry the same nonempty
tag, "Interpolated to {t} between {tagA} and {tagB}" when the tags differ,
and "Interpolated to {t}" when neither input has a (nonempty) tag. -/
theorem interpolate_tags_spec (lowTag highTag parameter : String) :
    (∀ t, interpolate_tags lowTag highTag parameter (some t) = t) ∧
    (lowTag = highTag → lowTag ≠ "" →
      interpolate_tags lowTag highTag parameter none =
        "Interpolated to " ++ parameter ++ " in " ++ lowTag) ∧
    (lowTag ≠ highTag →
      interpolate_tags lowTag highTag parameter none =
        "Interpolated to " ++ parameter ++ " between " ++ lowTag ++ " and " ++ highTag) ∧
    (lowTag = "" → highTag = "" →
      interpolate_tags lowTag highTag parameter none = "Interpolated to " ++ parameter) := by
  refine ⟨fun t => rfl, fun he hne => ?_, fun hne => ?_, fun h1 h2 => ?_⟩
  · subst he; simp [interpolate_tags, hne]
  · simp [interpolate_tags, hne]
  · subst h1; subst h2; simp [interpolate_tags]

/-- Witness for C8 at concrete tags. -/
theorem interpolate_tags_spec_witness :
    ("pess" : String) ≠ "" ∧
    interpolate_tags "pess" "pess" "0.5" none = "Interpolated to 0.5 in pess" := by
  refine ⟨by decide, ?_⟩
  have h := (interpolate_tags_spec "pess" "pess" "0.5").2.1 rfl (by decide)
  simpa using h

/-! ### C9 -/

theorem weighted_value_zero (a b : ℚ) : weighted_value 0 a b = a := by
  simp [weighted_value]

theorem weighted_value_one (a b : ℚ) : weighted_value 1 a b = b := by
  simp [weighted_value]

/-- C9: boundary law of the endpoint blending in `interpolate_wo` and
`interpolate_go`: at `parameter = 0` every blended scalar endpoint
(`swl`, `swcr`, `sorw` / `swl`, `sgcr`, `sorg`, and the endpoint relperm
values `krwmax`/`krgmax`, `krwend`/`krgend`, `kroend`) equals the low
curve's value, and at `parameter = 1` the high curve's (exactly, in the
exact-rational model of float arithmetic). -/
theorem interpolate_endpoints_boundary (wlo whi : WaterOil) (glo ghi : GasOil) :
    interpolate_wo_endpoints wlo whi 0 = wo_endpoints wlo ∧
    interpolate_wo_endpoints wlo whi 1 = wo_endpoints whi ∧
    interpolate_go_endpoints glo ghi 0 = go_endpoints glo ∧
    interpolate_go_endpoints glo ghi 1 = go_endpoints ghi := by
  refine ⟨?_, ?_, ?_, ?_⟩ <;>
    simp [interpolate_wo_endpoints, interpolate_go_endpoints, wo_endpoints, go_endpoints,
      weighted_value_zero, weighted_value_one]

/-! ### C5 -/

theorem modify_loop_st_caller (digits : ℕ) :
    ∀ (mono : List (String × MonoSpec)) (c g : Frame),
      (modify_loop_st digits ⟨c, Binding.copy g⟩ mono).1.caller = c := by
  intro mono
  induction mono with
  | nil => intro c g; rfl
  | cons cm rest ih =>
    intro c g
    obtain ⟨col, m⟩ := cm
    simp only [modify_loop_st]
    cases h : fix_column (frameCol (DfState.deref ⟨c, Binding.copy g⟩) col) m digits with
    | error e => simp [h]
    | ok s =>
      simp only [h]
      exact ih c _

theorem modify_st_caller (c : Frame) (b : Binding)
    (mono : List (String × MonoSpec)) (digits : ℕ) :
    (modify_st ⟨c, b⟩ mono digits).1.caller = c := by
  unfold modify_st
  split
  · rfl
  · split
    · rfl
    · split
      · next st2 e heq =>
        have h := modify_loop_st_caller digits mono c
          (roundFrame (digits + 1) (DfState.deref ⟨c, b⟩))
        rw [heq] at h
        exact h
      · next st2 u heq =>
        have h := modify_loop_st_caller digits mono c
          (roundFrame (digits + 1) (DfState.deref ⟨c, b⟩))
        rw [heq] at h
        exact h

/-- C5: neither `modify_dframe_monotonocity` nor `df2str` mutates the
caller's frame: the local `dframe` binding is detached onto a private copy
by `dframe = dframe.round(digits + 1)` before any write, so after the call
— whether it returns (`ok`) or raises (`error`) — the caller's frame holds
its original cells. -/
theorem df2str_no_caller_mutation (c : Frame) (mono : List (String × MonoSpec))
    (monoOpt : Option (List (String × MonoSpec))) (digits roundlevel : ℕ) :
    (modify_st ⟨c, Binding.view⟩ mono digits).1.caller = c ∧
    (df2str_st ⟨c, Binding.view⟩ digits roundlevel monoOpt).1.caller = c := by
  refine ⟨modify_st_caller c Binding.view mono digits, ?_⟩
  cases monoOpt with
  | none => rfl
  | some ms =>
    simp only [df2str_st]
    split
    · next st' e heq =>
      have h := modify_st_caller c Binding.view ms digits
      rw [heq] at h
      exact h
    · next st' res heq =>
      have h := modify_st_caller c Binding.view ms digits
      rw [heq] at h
      exact h

/-! ### C2 -/

theorem fix_loop_ok_le (m : MonoSpec) (digits : ℕ) :
    ∀ (fuel it : ℕ) (s s' : List ℚ) (k : ℕ),
      fix_loop m digits fuel it s = .ok (s', k) → k ≤ it + fuel := by
  intro fuel
  induction fuel with
  | zero =>
    intro it s s' k h
    rw [fix_loop] at h
    by_cases hc : (rows_to_be_fixed s m digits m.sign).any id = true
    · simp [hc] at h
    · simp only [hc, if_false, Bool.false_eq_true, Except.ok.injEq, Prod.mk.injEq] at h
      omega
  | succ n ih =>
    intro it s s' k h
    rw [fix_loop] at h
    by_cases hc : (rows_to_be_fixed s m digits m.sign).any id = true
    · simp only [hc, if_true] at h
      have := ih (it + 1) _ s' k h
      omega
    · simp only [hc, if_false, Bool.false_eq_true, Except.ok.injEq, Prod.mk.injEq] at h
      omega

theorem fix_loop_error_eq (m : MonoSpec) (digits : ℕ) :
    ∀ (fuel it : ℕ) (s : List ℚ) (e : UtilsError),
      fix_loop m digits fuel it s = .error e → e = .tooManyIterations := by
  intro fuel
  induction fuel with
  | zero =>
    intro it s e h
    rw [fix_loop] at h
    by_cases hc : (rows_to_be_fixed s m digits m.sign).any id = true
    · simp only [hc, if_true, Except.error.injEq] at h
      exact h.symm
    · simp [hc] at h
  | succ n ih =>
    intro it s e h
    rw [fix_loop] at h
    by_cases hc : (rows_to_be_fixed s m digits m.sign).any id = true
    · simp only [hc, if_true] at h
      exact ih (it + 1) _ e h
    · simp [hc] at h

/-- C2: the per-column fixing loop of `modify_dframe_monotonocity` (as
invoked by `fix_column`, with budget `2 * len(series)` and the iteration
counter starting at 0) terminates on every input: either it returns with an
iteration count of at most `2 × row_count`, or it raises the convergence
error `"Too many iterations for monotonocity fix"` — the only error it can
produce — instead of looping further. -/
theorem fix_loop_iteration_budget (m : MonoSpec) (digits : ℕ) (series : List ℚ) :
    (∃ s' k, fix_loop m digits (2 * series.length) 0 series = .ok (s', k) ∧
        k ≤ 2 * series.length) ∨
      fix_loop m digits (2 * series.length) 0 series =
        .error UtilsError.tooManyIterations := by
  cases h : fix_loop m digits (2 * series.length) 0 series with
  | ok p =>
    obtain ⟨s', k⟩ := p
    left
    refine ⟨s', k, rfl, ?_⟩
    have := fix_loop_ok_le m digits (2 * series.length) 0 series s' k h
    omega
  | error e =>
    right
    rw [fix_loop_error_eq m digits (2 * series.length) 0 series e h]

/-- Witness for C2 at a concrete column (no hypotheses to discharge; the
theorem is applied at a concrete input). -/
theorem fix_loop_iteration_budget_witness :
    (∃ s' k, fix_loop ⟨1, some 0, some 1, none⟩ 1 (2 * ([1/2, 1/2] : List ℚ).length) 0
        [1/2, 1/2] = .ok (s', k) ∧ k ≤ 2 * ([1/2, 1/2] : List ℚ).length) ∨
      fix_loop ⟨1, some 0, some 1, none⟩ 1 (2 * ([1/2, 1/2] : List ℚ).length) 0
        [1/2, 1/2] = .error UtilsError.tooManyIterations :=
  fix_loop_iteration_budget ⟨1, some 0, some 1, none⟩ 1 [1/2, 1/2]

/-! ### C10 -/

theorem rows_to_be_fixed_head (x : ℚ) (xs : List ℚ) (m : MonoSpec)
    (digits : ℕ) (sign : ℤ) :
    (rows_to_be_fixed (x :: xs) m digits sign).head? = some false := by
  obtain ⟨s, lower, upper, az⟩ := m
  rcases upper with _ | u <;> rcases lower with _ | lo <;>
    simp [rows_to_be_fixed]

theorem nudge_cons_false (x : ℚ) (xs : List ℚ) (cs : List Bool)
    (digits : ℕ) (sign : ℤ) :
    nudge (x :: xs) (false :: cs) digits sign = x :: nudge xs cs digits sign := by
  simp [nudge]

theorem clip_accumulate_cons_head (y : ℚ) (ys : List ℚ) (m : MonoSpec) :
    (clip_accumulate (y :: ys) m).head? = some (clipVal m y) := by
  obtain ⟨sign, lower, upper, az⟩ := m
  rcases lower with _ | lo <;> rcases upper with _ | hi <;>
    by_cases hs : sign > 0 <;>
    simp [clip_accumulate, clipVal, runningMax, runningMin, hs, scanl_head?,
      List.head?_map]

theorem clipVal_idem (m : MonoSpec) (v : ℚ) :
    clipVal m (clipVal m v) = clipVal m v := by
  obtain ⟨s, lower, upper, az⟩ := m
  rcases lower with _ | lo <;> rcases upper with _ | hi <;> simp only [clipVal]
  · rw [min_assoc, min_self]
  · rw [max_assoc, max_self]
  · rcases le_total lo hi with h | h
    · have h1 : lo ≤ min (max v lo) hi := le_min (le_max_right v lo) h
      rw [max_eq_left h1, min_eq_left (min_le_right (max v lo) hi)]
    · have h1 : min (max v lo) hi = hi := min_eq_right (h.trans (le_max_right v lo))
      rw [h1, max_eq_right h, min_eq_right h]

theorem fix_loop_head_inv (m : MonoSpec) (digits : ℕ) :
    ∀ (fuel it : ℕ) (h : ℚ) (t s' : List ℚ) (k : ℕ),
      fix_loop m digits fuel it (h :: t) = .ok (s', k) →
      s'.head? = some h ∨ s'.head? = some (clipVal m h) := by
  intro fuel
  induction fuel with
  | zero =>
    intro it h t s' k hr
    rw [fix_loop] at hr
    by_cases hc : (rows_to_be_fixed (h :: t) m digits m.sign).any id = true
    · simp [hc] at hr
    · simp only [hc, Bool.false_eq_true, if_false, Except.ok.injEq, Prod.mk.injEq] at hr
      left
      rw [← hr.1]
      rfl
  | succ n ih =>
    intro it h t s' k hr
    rw [fix_loop] at hr
    by_cases hc : (rows_to_be_fixed (h :: t) m digits m.sign).any id = true
    · simp only [hc, if_true] at hr
      have hhead := rows_to_be_fixed_head h t m digits m.sign
      cases hcs : rows_to_be_fixed (h :: t) m digits m.sign with
      | nil => rw [hcs] at hhead; simp at hhead
      | cons b cs =>
        rw [hcs] at hhead
        simp only [List.head?_cons, Option.some.injEq] at hhead
        subst hhead
        rw [hcs, nudge_cons_false] at hr
        have hch := clip_accumulate_cons_head h (nudge t cs digits m.sign) m
        cases hsh : clip_accumulate (h :: nudge t cs digits m.sign) m with
        | nil => rw [hsh] at hch; simp at hch
        | cons y ys =>
          rw [hsh] at hch
          simp only [List.head?_cons, Option.some.injEq] at hch
          subst hch
          rw [hsh] at hr
          rcases ih (it + 1) (clipVal m h) ys s' k hr with h1 | h1
          · right; exact h1
          · right; rw [clipVal_idem] at h1; exact h1
    · simp only [hc, Bool.false_eq_true, if_false, Except.ok.injEq, Prod.mk.injEq] at hr
      left
      rw [← hr.1]
      rfl

/-- C10: `rows_to_be_fixed` always returns `False` at the first position of
a nonempty column (the backward difference there is the NaN pandas `diff()`
produces, and NaN comparisons are `False`), so the fixing loop's nudge never
touches the first row: on every successful exit of the loop the first row
holds either its original value or `clip_accumulate`'s clip of it to the
declared bounds. -/
theorem rows_to_be_fixed_first_row (m : MonoSpec) (digits : ℕ) (sign : ℤ)
    (x : ℚ) (xs : List ℚ) :
    (rows_to_be_fixed (x :: xs) m digits sign).head? = some false ∧
    ∀ (fuel : ℕ) (s' : List ℚ) (k : ℕ),
      fix_loop m digits fuel 0 (x :: xs) = .ok (s', k) →
      s'.head? = some x ∨ s'.head? = some (clipVal m x) :=
  ⟨rows_to_be_fixed_head x xs m digits sign,
   fun fuel s' k h => fix_loop_head_inv m digits fuel 0 x xs s' k h⟩

/-- Witness for C10: the loop on `[0.5, 0.5]` (sign +1, bounds [0, 1],
digits 1) exits after one nudge with the first row unchanged. -/
theorem rows_to_be_fixed_first_row_witness :
    (rows_to_be_fixed [1/2, 1/2] ⟨1, some 0, some 1, none⟩ 1 1).head? = some false ∧
    (([1/2, 59999999/100000000] : List ℚ).head? = some (1/2) ∨
      ([1/2, 59999999/100000000] : List ℚ).head? =
        some (clipVal ⟨1, some 0, some 1, none⟩ (1/2))) :=
  ⟨(rows_to_be_fixed_first_row ⟨1, some 0, some 1, none⟩ 1 1 (1/2) [1/2]).1,
   (rows_to_be_fixed_first_row ⟨1, some 0, some 1, none⟩ 1 1 (1/2) [1/2]).2 4
     [1/2, 59999999/100000000] 1 (by
      norm_num [fix_loop, rows_to_be_fixed, diffsQ, roundQ, round_eq, epsilon, nudge,
        clip_accumulate, runningMax, runningMin, List.scanl])⟩

/-- Witness for C4: the spec's example `check_limits([0.1, 0.5, 1.2], upper=1.0)`
raises a range error. -/
theorem check_limits_error_iff_witness :
    ∃ e, check_limits [1/10, 5/10, 12/10] ⟨1, none, some 1, none⟩ = .error e :=
  (check_limits_error_iff [1/10, 5/10, 12/10] ⟨1, none, some 1, none⟩).1.2
    (Or.inl ⟨1, rfl, 12/10, by norm_num, by norm_num⟩)

/-! ### C1 -/

theorem diffsQ_forall (P : ℚ → Prop) :
    ∀ l : List ℚ, (∀ d ∈ diffsQ l, P d) ↔ List.Chain' (fun a b => P (b - a)) l := by
  intro l
  induction l with
  | nil => simp [diffsQ]
  | cons a t ih =>
    cases t with
    | nil => simp [diffsQ]
    | cons b t' =>
      have hd : diffsQ (a :: b :: t') = (b - a) :: diffsQ (b :: t') := rfl
      rw [hd, List.chain'_cons, ← ih, List.forall_mem_cons]

theorem fix_column_ok_diffs (s : List ℚ) (m : MonoSpec) (digits : ℕ) (s' : List ℚ)
    (hskip : allowzero_skip s m digits = false)
    (h : fix_column s m digits = .ok s') :
    (0 < m.sign → ∀ d ∈ diffsQ (s'.map (roundQ digits)), -(1 / 10 ^ digits : ℚ) ≤ d) ∧
    (m.sign < 0 → ∀ d ∈ diffsQ (s'.map (roundQ digits)), d ≤ (1 / 10 ^ digits : ℚ)) := by
  unfold fix_column at h
  simp only [hskip, Bool.false_eq_true, if_false] at h
  split at h
  · exact absurd h (by simp)
  · split at h
    · split at h
      · exact absurd h (by simp)
      · next hany =>
        obtain rfl : _ = s' := Except.ok.inj h
        have hs : 0 < m.sign := by assumption
        constructor
        · intro _ d hd
          rw [List.any_eq_true] at hany
          push_neg at hany
          have := hany d hd
          simp only [ne_eq, decide_eq_true_eq] at this
          linarith
        · intro hneg
          omega
    · split at h
      · exact absurd h (by simp)
      · next hany =>
        obtain rfl : _ = s' := Except.ok.inj h
        have hs : ¬ m.sign > 0 := by assumption
        constructor
        · intro hpos
          omega
        · intro _ d hd
          rw [List.any_eq_true] at hany
          push_neg at hany
          have := hany d hd
          simp only [ne_eq, decide_eq_true_eq] at this
          linarith

theorem frameNames_frameSet (f : Frame) (c : String) (v : List ℚ) :
    frameNames (frameSet f c v) = frameNames f := by
  induction f with
  | nil => rfl
  | cons p rest ih =>
    obtain ⟨n, col⟩ := p
    by_cases h : n = c <;> simp [frameSet, frameNames, h] <;>
      simpa [frameNames] using ih

theorem frameCol_frameSet_ne (f : Frame) (c c' : String) (v : List ℚ) (h : c' ≠ c) :
    frameCol (frameSet f c' v) c = frameCol f c := by
  induction f with
  | nil => rfl
  | cons p rest ih =>
    obtain ⟨n, col⟩ := p
    by_cases hn : n = c' <;> by_cases hc : n = c
    · exact absurd (hn ▸ hc) h
    · subst hn; simp [frameSet, frameCol, hc, ih]
    · subst hc; simp [frameSet, frameCol, hn]
    · simp [frameSet, frameCol, hn, hc, ih]

theorem frameCol_frameSet_self (f : Frame) (c : String) (v : List ℚ)
    (h : c ∈ frameNames f) :
    frameCol (frameSet f c v) c = v := by
  induction f with
  | nil => simp [frameNames] at h
  | cons p rest ih =>
    obtain ⟨n, col⟩ := p
    by_cases hn : n = c
    · subst hn; simp [frameSet, frameCol]
    · have h' : c ∈ frameNames rest := by
        simp only [frameNames, List.map_cons, List.mem_cons] at h
        rcases h with h | h
        · exact absurd h.symm hn
        · simpa [frameNames] using h
      simp [frameSet, frameCol, hn, ih h']

theorem frameNames_roundFrame (d : ℕ) (f : Frame) :
    frameNames (roundFrame d f) = frameNames f := by
  simp [frameNames, roundFrame, List.map_map, Function.comp]

theorem frameCol_roundFrame (d : ℕ) (f : Frame) (c : String) :
    frameCol (roundFrame d f) c = (frameCol f c).map (roundQ d) := by
  induction f with
  | nil => rfl
  | cons p rest ih =>
    obtain ⟨n, col⟩ := p
    by_cases hn : n = c <;> simp [roundFrame, frameCol, hn] <;>
      simpa [roundFrame] using ih

theorem validate_ok_mem :
    ∀ (mono : List (String × MonoSpec)) (colnames : List String),
      validate_monotonocity_arg mono colnames = .ok () →
      ∀ col m, (col, m) ∈ mono → col ∈ colnames := by
  intro mono
  induction mono with
  | nil => intro _ _ col m hm; simp at hm
  | cons cm rest ih =>
    intro colnames hv col m hmem
    obtain ⟨c1, m1⟩ := cm
    unfold validate_monotonocity_arg at hv
    by_cases h1 : c1 ∉ colnames
    · rw [if_pos h1] at hv; exact absurd hv (by simp)
    · rw [if_neg h1] at hv
      by_cases h2 : |m1.sign| > 1
      · rw [if_pos h2] at hv; exact absurd hv (by simp)
      · rw [if_neg h2] at hv
        rcases List.mem_cons.1 hmem with heq | hmem'
        · injection heq with hc hm
          subst hc
          exact not_not.1 h1
        · exact ih colnames hv col m hmem'

theorem deref_copy (c g : Frame) : DfState.deref ⟨c, Binding.copy g⟩ = g := rfl

theorem deref_view (c : Frame) : DfState.deref ⟨c, Binding.view⟩ = c := rfl

theorem caller_mk (c : Frame) (b : Binding) : (⟨c, b⟩ : DfState).caller = c := rfl

theorem modify_loop_st_other (digits : ℕ) :
    ∀ (mono : List (String × MonoSpec)) (c g : Frame) (col : String),
      col ∉ mono.map Prod.fst →
      frameCol (modify_loop_st digits ⟨c, Binding.copy g⟩ mono).1.deref col =
        frameCol g col := by
  intro mono
  induction mono with
  | nil => intro c g col _; rfl
  | cons cm rest ih =>
    intro c g col hcol
    obtain ⟨c1, m1⟩ := cm
    have hne : c1 ≠ col := by
      intro h
      subst h
      exact hcol (by simp)
    have hcol' : col ∉ rest.map Prod.fst := fun h => hcol (by simp [h])
    simp only [modify_loop_st, DfState.write, deref_copy]
    cases h : fix_column (frameCol g c1) m1 digits with
    | error e => simp [h, deref_copy]
    | ok s =>
      simp only [h]
      rw [ih c (frameSet g c1 s) col hcol', frameCol_frameSet_ne g col c1 s hne]

theorem modify_loop_st_ok_col (digits : ℕ) :
    ∀ (mono : List (String × MonoSpec)) (c g : Frame) (st2 : DfState),
      (mono.map Prod.fst).Nodup →
      (∀ p ∈ mono, p.1 ∈ frameNames g) →
      modify_loop_st digits ⟨c, Binding.copy g⟩ mono = (st2, .ok ()) →
      ∀ col m, (col, m) ∈ mono →
        fix_column (frameCol g col) m digits = .ok (frameCol st2.deref col) := by
  intro mono
  induction mono with
  | nil => intro c g st2 _ _ _ col m hmem; simp at hmem
  | cons cm rest ih =>
    intro c g st2 hnd hmemg hrun col m hmem
    obtain ⟨c1, m1⟩ := cm
    simp only [modify_loop_st, DfState.write, deref_copy] at hrun
    cases h : fix_column (frameCol g c1) m1 digits with
    | error e => simp [h] at hrun
    | ok s =>
      simp only [h] at hrun
      have hc1notin : c1 ∉ rest.map Prod.fst := by
        have htl := hnd
        simp only [List.map_cons, List.nodup_cons] at htl
        exact htl.1
      rcases List.mem_cons.1 hmem with heq | hmem'
      · injection heq with hc hm
        subst hc
        subst hm
        have hother := modify_loop_st_other digits rest c (frameSet g col s) col hc1notin
        rw [hrun] at hother
        dsimp only at hother
        rw [hother, frameCol_frameSet_self g col s (hmemg (col, m) (by simp))]
        exact h
      · have hccol : c1 ≠ col := by
          intro hh
          subst hh
          exact hc1notin (List.mem_map.2 ⟨(c1, m), hmem', rfl⟩)
        have hnames : ∀ p ∈ rest, p.1 ∈ frameNames (frameSet g c1 s) := by
          intro p hp
          rw [frameNames_frameSet]
          exact hmemg p (List.mem_cons_of_mem _ hp)
        have hnd' : (rest.map Prod.fst).Nodup := by
          simp only [List.map_cons, List.nodup_cons] at hnd
          exact hnd.2
        have hres := ih c (frameSet g c1 s) st2 hnd' hnames hrun col m hmem'
        rwa [frameCol_frameSet_ne g col c1 s hccol] at hres

/-- C1 (amended): on every successful return of `modify_dframe_monotonocity`,
every column listed in the spec that is *not* exempted by the `allowzero`
skip (allowzero set true with all magnitudes below the accuracy) satisfies
the final check: with `sign = +1` all consecutive differences of the column
rounded to `digits` decimals are `≥ -10^-digits`, and with `sign = -1` all
are `≤ +10^-digits`; a column failing this check makes the function raise
instead of returning.  (The claim as frozen, without the allowzero proviso,
is refuted by `modify_allowzero_counterexample`.) -/
theorem modify_dframe_monotonocity_final_check
    (dframe : Frame) (mono : List (String × MonoSpec)) (digits : ℕ) (df' : Frame)
    (hnodup : (mono.map Prod.fst).Nodup)
    (hok : modify_dframe_monotonocity dframe mono digits = .ok df')
    (col : String) (m : MonoSpec) (hmem : (col, m) ∈ mono)
    (hskip : allowzero_skip (frameCol (roundFrame (digits + 1) dframe) col) m digits =
      false) :
    (0 < m.sign → List.Chain' (fun a b => -(1 / 10 ^ digits : ℚ) ≤ b - a)
        ((frameCol df' col).map (roundQ digits))) ∧
    (m.sign < 0 → List.Chain' (fun a b => b - a ≤ (1 / 10 ^ digits : ℚ))
        ((frameCol df' col).map (roundQ digits))) := by
  unfold modify_dframe_monotonocity modify_st at hok
  simp only [deref_view, caller_mk] at hok
  cases hval : validate_monotonocity_arg mono (frameNames dframe) with
  | error e => simp [hval] at hok
  | ok u =>
    simp only [hval] at hok
    cases hprep : prepare_loop (roundFrame (digits + 1) dframe) digits mono with
    | error e => simp [hprep] at hok
    | ok u2 =>
      simp only [hprep] at hok
      cases hloop : modify_loop_st digits
          ⟨dframe, Binding.copy (roundFrame (digits + 1) dframe)⟩ mono with
      | mk st2 r =>
        cases r with
        | error e => simp [hloop] at hok
        | ok u3 =>
          simp only [hloop] at hok
          have hdf : st2.deref = df' := Except.ok.inj hok
          subst hdf
          have hcols : ∀ p ∈ mono, p.1 ∈ frameNames (roundFrame (digits + 1) dframe) := by
            intro p hp
            rw [frameNames_roundFrame]
            exact validate_ok_mem mono (frameNames dframe) hval p.1 p.2 (by simpa using hp)
          have hfix := modify_loop_st_ok_col digits mono dframe
            (roundFrame (digits + 1) dframe) st2 hnodup hcols hloop col m hmem
          have hd := fix_column_ok_diffs _ m digits _ hskip hfix
          exact ⟨fun hs => (diffsQ_forall _ _).1 (hd.1 hs),
            fun hs => (diffsQ_forall _ _).1 (hd.2 hs)⟩

/-- C1 counterexample: with `allowzero` set, the column
`[0.009, -0.009]` at `digits = 2` is skipped (all magnitudes below the
accuracy), so `modify_dframe_monotonocity` returns successfully although the
column rounded to 2 decimals is `[0.01, -0.01]`, whose consecutive
difference `-0.02` is below `-10^-2`: the claim as frozen is false. -/
theorem modify_allowzero_counterexample :
    modify_dframe_monotonocity [("pc", [9/1000, -9/1000])]
        [("pc", ⟨1, none, none, some true⟩)] 2 = .ok [("pc", [9/1000, -9/1000])] ∧
    ¬ List.Chain' (fun a b => -(1 / 10 ^ 2 : ℚ) ≤ b - a)
        ((frameCol [("pc", [9/1000, -9/1000])] "pc").map (roundQ 2)) := by
  constructor
  · norm_num [modify_dframe_monotonocity, modify_st, validate_monotonocity_arg, frameNames,
      DfState.deref, prepare_loop, frameCol, roundFrame, check_almost_monotone, check_limits,
      diffsQ, modify_loop_st, fix_column, allowzero_skip, epsilon, roundQ, round_eq,
      DfState.write, frameSet, abs]
  · intro hch
    have hfc : frameCol [("pc", [9/1000, -9/1000])] "pc" = [9/1000, -9/1000] := rfl
    rw [hfc] at hch
    have h1 : roundQ 2 (9/1000) = 1/100 := by norm_num [roundQ, round_eq]
    have h2 : roundQ 2 (-9/1000) = -(1/100) := by norm_num [roundQ, round_eq]
    simp only [List.map_cons, List.map_nil, h1, h2, List.chain'_cons,
      List.chain'_singleton, and_true] at hch
    norm_num at hch

/-- Witness for the amended C1 at a concrete input: the column `[0, 0.5]`
with `sign = +1` and `digits = 1` passes the fixer unchanged and satisfies
the final bound. -/
theorem modify_dframe_monotonocity_final_check_witness :
    List.Chain' (fun a b => -(1 / 10 ^ 1 : ℚ) ≤ b - a)
      ((frameCol [("sw", [0, 1/2])] "sw").map (roundQ 1)) :=
  (modify_dframe_monotonocity_final_check [("sw", [0, 1/2])]
      [("sw", ⟨1, none, none, none⟩)] 1 [("sw", [0, 1/2])]
      (by simp)
      (by norm_num [modify_dframe_monotonocity, modify_st, validate_monotonocity_arg,
        frameNames, DfState.deref, prepare_loop, frameCol, roundFrame,
        check_almost_monotone, check_limits, diffsQ, modify_loop_st, fix_column,
        allowzero_skip, epsilon, roundQ, round_eq, DfState.write, frameSet, abs,
        fix_loop, rows_to_be_fixed, nudge, clip_accumulate, runningMax, runningMin,
        List.scanl])
      "sw" ⟨1, none, none, none⟩ (by simp) rfl).1 (by norm_num)

/-! ### C6 -/

theorem mem_insertByFst (x a : ℚ × ℚ) :
    ∀ l : List (ℚ × ℚ), a ∈ insertByFst x l ↔ a = x ∨ a ∈ l := by
  intro l
  induction l with
  | nil => simp [insertByFst]
  | cons y ys ih =>
    simp only [insertByFst]
    by_cases h : x.1 ≤ y.1
    · simp only [h, if_true, List.mem_cons]
    · simp only [h, if_false, List.mem_cons, ih]
      tauto

theorem mem_sortByFst (a : ℚ × ℚ) : ∀ l, a ∈ sortByFst l ↔ a ∈ l := by
  intro l
  induction l with
  | nil => simp [sortByFst]
  | cons y ys ih =>
    have hstep : sortByFst (y :: ys) = insertByFst y (sortByFst ys) := rfl
    rw [hstep, mem_insertByFst, ih, List.mem_cons]

theorem length_insertByFst (x : ℚ × ℚ) :
    ∀ l : List (ℚ × ℚ), (insertByFst x l).length = l.length + 1 := by
  intro l
  induction l with
  | nil => rfl
  | cons y ys ih =>
    simp only [insertByFst]
    by_cases h : x.1 ≤ y.1 <;> simp [h, ih]

theorem length_sortByFst : ∀ l : List (ℚ × ℚ), (sortByFst l).length = l.length := by
  intro l
  induction l with
  | nil => rfl
  | cons y ys ih =>
    have hstep : sortByFst (y :: ys) = insertByFst y (sortByFst ys) := rfl
    rw [hstep, length_insertByFst, ih]
    rfl

theorem interpGo_high (x fh : ℚ) :
    ∀ (rest : List (ℚ × ℚ)) (p : ℚ × ℚ), (∀ q ∈ p :: rest, q.1 < x) →
      interpGo p rest fh x = fh := by
  intro rest
  induction rest with
  | nil =>
    intro p h
    simp only [interpGo]
    rw [if_pos (h p (by simp))]
  | cons q rest' ih =>
    intro p h
    simp only [interpGo]
    rw [if_neg (not_le.2 (h q (by simp)))]
    exact ih q (fun r hr => h r (List.mem_cons_of_mem p hr))

theorem interp1d_below (pts : List (ℚ × ℚ)) (fl fh x : ℚ)
    (h : ∀ q ∈ pts, x < q.1) : interp1d pts fl fh x = fl := by
  unfold interp1d
  cases hs : sortByFst pts with
  | nil => rfl
  | cons p rest =>
    have hp : p ∈ pts := (mem_sortByFst p pts).1 (hs ▸ List.mem_cons_self p rest)
    dsimp only
    rw [if_pos (h p hp)]

theorem interp1d_above (pts : List (ℚ × ℚ)) (fl fh x : ℚ) (hne : pts ≠ [])
    (h : ∀ q ∈ pts, q.1 < x) : interp1d pts fl fh x = fh := by
  unfold interp1d
  cases hs : sortByFst pts with
  | nil =>
    have hl := length_sortByFst pts
    rw [hs] at hl
    exact absurd (List.length_eq_zero.1 hl.symm) hne
  | cons p rest =>
    have hmem : ∀ q ∈ p :: rest, q.1 < x := by
      intro q hq
      exact h q ((mem_sortByFst q pts).1 (hs ▸ hq))
    dsimp only
    rw [if_neg (not_lt.2 (le_of_lt (hmem p (by simp))))]
    exact interpGo_high x fh rest p hmem

theorem foldl_min_le (l : List ℚ) :
    ∀ a : ℚ, l.foldl min a ≤ a ∧ ∀ v ∈ l, l.foldl min a ≤ v := by
  induction l with
  | nil => intro a; exact ⟨le_refl a, by simp⟩
  | cons y ys ih =>
    intro a
    simp only [List.foldl_cons]
    have h := ih (min a y)
    refine ⟨h.1.trans (min_le_left a y), ?_⟩
    intro v hv
    rcases List.mem_cons.1 hv with rfl | hv'
    · exact h.1.trans (min_le_right a v)
    · exact h.2 v hv'

theorem le_foldl_max (l : List ℚ) :
    ∀ a : ℚ, a ≤ l.foldl max a ∧ ∀ v ∈ l, v ≤ l.foldl max a := by
  induction l with
  | nil => intro a; exact ⟨le_refl a, by simp⟩
  | cons y ys ih =>
    intro a
    simp only [List.foldl_cons]
    have h := ih (max a y)
    refine ⟨(le_max_left a y).trans h.1, ?_⟩
    intro v hv
    rcases List.mem_cons.1 hv with rfl | hv'
    · exact (le_max_right a v).trans h.1
    · exact h.2 v hv'

theorem colMin_le (l : List ℚ) (v : ℚ) (hv : v ∈ l) : colMin l ≤ v := by
  cases l with
  | nil => simp at hv
  | cons x xs =>
    rcases List.mem_cons.1 hv with rfl | hv'
    · exact (foldl_min_le xs v).1
    · exact (foldl_min_le xs x).2 v hv'

theorem le_colMax (l : List ℚ) (v : ℚ) (hv : v ∈ l) : v ≤ colMax l := by
  cases l with
  | nil => simp at hv
  | cons x xs =>
    rcases List.mem_cons.1 hv with rfl | hv'
    · exact (le_foldl_max xs v).1
    · exact (le_foldl_max xs x).2 v hv'

/-- C6 (amended): `normalize_pc` returns the constant-zero function when the
table has no `pc` column; otherwise it evaluates the linear interpolant at
`sx_fn(sxn) = min(sat) + sxn * (max(sat) - min(sat))`, which maps `[0, 1]`
linearly onto the observed saturation range; the extrapolation outside
`[0, 1]` is flat but at the *column extremes* of pc: below 0 it returns
`max(pc)` and above 1 `min(pc)` — these coincide with the pc values at the
nearest saturation extreme only when pc is non-increasing in saturation
(the claim as frozen is refuted by `normalize_pc_counterexample`). -/
theorem normalize_pc_spec (sat pc : List ℚ) (hne : sat ≠ [])
    (hlen : pc.length = sat.length) (hspan : colMin sat < colMax sat) :
    (∀ sxn : ℚ, normalize_pc_aux sat none sxn = 0) ∧
    (∀ sxn : ℚ, sxn < 0 → normalize_pc_aux sat (some pc) sxn = colMax pc) ∧
    (∀ sxn : ℚ, 1 < sxn → normalize_pc_aux sat (some pc) sxn = colMin pc) ∧
    (∀ sxn : ℚ, 0 ≤ sxn → sxn ≤ 1 →
      normalize_pc_aux sat (some pc) sxn =
        interp1d (sat.zip pc) (colMax pc) (colMin pc)
          (colMin sat + sxn * (colMax sat - colMin sat)) ∧
      colMin sat ≤ colMin sat + sxn * (colMax sat - colMin sat) ∧
      colMin sat + sxn * (colMax sat - colMin sat) ≤ colMax sat) := by
  have hzip_ne : sat.zip pc ≠ [] := by
    cases sat with
    | nil => exact absurd rfl hne
    | cons a t =>
      cases pc with
      | nil => simp at hlen
      | cons b u => simp [List.zip]
  refine ⟨fun sxn => rfl, ?_, ?_, ?_⟩
  · intro sxn hs
    show interp1d (sat.zip pc) (colMax pc) (colMin pc)
        (colMin sat + sxn * (colMax sat - colMin sat)) = colMax pc
    apply interp1d_below
    intro q hq
    have hq1 : q.1 ∈ sat := (List.of_mem_zip hq).1
    have h1 : colMin sat ≤ q.1 := colMin_le sat q.1 hq1
    have h2 : sxn * (colMax sat - colMin sat) < 0 :=
      mul_neg_of_neg_of_pos hs (by linarith)
    linarith
  · intro sxn hs
    show interp1d (sat.zip pc) (colMax pc) (colMin pc)
        (colMin sat + sxn * (colMax sat - colMin sat)) = colMin pc
    apply interp1d_above _ _ _ _ hzip_ne
    intro q hq
    have hq1 : q.1 ∈ sat := (List.of_mem_zip hq).1
    have h1 : q.1 ≤ colMax sat := le_colMax sat q.1 hq1
    have h2 : colMax sat - colMin sat < sxn * (colMax sat - colMin sat) := by
      nlinarith
    linarith
  · intro sxn h0 h1
    refine ⟨rfl, by nlinarith, by nlinarith⟩

/-- C6 counterexample: for the table `sat = [0, 1]`, `pc = [0, 1]`
(pc increasing in saturation), the pc value at the nearest observed
saturation extreme below the range is `pc(min sat) = 0` (the value the
function also returns at 0), yet the code returns the column maximum 1 at
argument -1: flat extrapolation is to the column extremes, not to the
endpoint values. -/
theorem normalize_pc_counterexample :
    normalize_pc_wo ⟨[0, 1], [0, 1], [1, 0], some [0, 1], 0, 0, 0, ""⟩ (-1) = 1 ∧
    normalize_pc_wo ⟨[0, 1], [0, 1], [1, 0], some [0, 1], 0, 0, 0, ""⟩ 0 = 0 ∧
    (1 : ℚ) ≠ 0 := by
  have hzip : (([0, 1] : List ℚ).zip ([0, 1] : List ℚ)) = [(0, 0), (1, 1)] := rfl
  refine ⟨?_, ?_, by norm_num⟩
  · show interp1d (([0, 1] : List ℚ).zip [0, 1]) (colMax [0, 1]) (colMin [0, 1])
        (colMin [0, 1] + (-1) * (colMax [0, 1] - colMin [0, 1])) = 1
    rw [hzip]
    norm_num [interp1d, sortByFst, insertByFst, interpGo, colMin, colMax, max_def, min_def]
  · show interp1d (([0, 1] : List ℚ).zip [0, 1]) (colMax [0, 1]) (colMin [0, 1])
        (colMin [0, 1] + 0 * (colMax [0, 1] - colMin [0, 1])) = 0
    rw [hzip]
    norm_num [interp1d, sortByFst, insertByFst, interpGo, colMin, colMax, max_def, min_def]

/-- Witness for the amended C6 at a concrete table. -/
theorem normalize_pc_spec_witness :
    (([0, 1] : List ℚ) ≠ [] ∧ colMin [0, 1] < colMax [0, 1]) ∧
    normalize_pc_aux [0, 1] (some [5, 2]) (-2) = colMax [5, 2] :=
  ⟨⟨by simp, by norm_num [colMin, colMax, max_def, min_def]⟩,
   (normalize_pc_spec [0, 1] [5, 2] (by simp) (by simp)
      (by norm_num [colMin, colMax, max_def, min_def])).2.1 (-2) (by norm_num)⟩

/-! ### C7 -/

theorem pandasInterpAt_out_of_range (pts : List (ℚ × ℚ)) (x : ℚ)
    (h : (∀ q ∈ pts, x < q.1) ∨ ∀ q ∈ pts, q.1 < x) :
    pandasInterpAt pts x = none := by
  unfold pandasInterpAt
  cases hs : sortByFst pts with
  | nil => rfl
  | cons p rest =>
    dsimp only
    have hmem : ∀ q ∈ p :: rest, q ∈ pts := by
      intro q hq
      exact (mem_sortByFst q pts).1 (hs ▸ hq)
    rcases h with h | h
    · rw [if_pos (h p (hmem p (by simp)))]
    · rw [if_neg (not_lt.2 (le_of_lt (h p (hmem p (by simp)))))]
      rw [if_pos (h (rest.getLastD p) (hmem _ (List.getLastD_mem_cons rest p)))]

theorem filterMap_zip_some :
    ∀ (A B : List ℚ),
      ((A.zip (B.map some)).filterMap fun p => p.2.map fun v => (p.1, v)) = A.zip B := by
  intro A
  induction A with
  | nil => intro B; rfl
  | cons a A' ih =>
    intro B
    cases B with
    | nil => rfl
    | cons b B' => simp [List.zip_cons_cons, ih]

theorem all_isSome_eq_map (sat : List (Option ℚ)) (h : ∀ s ∈ sat, s.isSome = true) :
    sat = (sat.map fun s => s.getD 0).map some := by
  induction sat with
  | nil => rfl
  | cons s rest ih =>
    cases s with
    | none => exact absurd (h none (by simp)) (by simp)
    | some v =>
      simp only [List.map_cons, Option.getD_some, List.cons.injEq, true_and]
      exact ih fun a ha => h a (List.mem_cons_of_mem _ ha)

theorem iscloseZero_zero : iscloseZero 0 = true := by
  simp only [iscloseZero, decide_eq_true_eq]
  norm_num

theorem iscloseZero_far (v : ℚ) (h : (1/10^8 : ℚ) < |v|) : iscloseZero v = false := by
  simp only [iscloseZero, decide_eq_false_iff_not]
  intro habs
  linarith

theorem crosspointInterp_out_of_range (dkr satv : List ℚ)
    (hlen : dkr.length = satv.length)
    (hside : (∀ v ∈ dkr, v < -(1/10^8 : ℚ)) ∨ ∀ v ∈ dkr, (1/10^8 : ℚ) < v) :
    crosspointInterp dkr (satv.map some) = none := by
  have hfar : ∀ v ∈ dkr, (1/10^8 : ℚ) < |v| := by
    rcases hside with h | h
    · intro v hv
      have := h v hv
      rw [abs_of_neg (by linarith)]
      linarith
    · intro v hv
      have := h v hv
      rw [abs_of_pos (by linarith)]
      linarith
  unfold crosspointInterp
  dsimp only
  have hzip : (dkr ++ [0]).zip (satv.map some ++ [none]) =
      dkr.zip (satv.map some) ++ [((0 : ℚ), (none : Option ℚ))] :=
    List.zip_append (by simp [hlen])
  rw [hzip, List.filterMap_append, filterMap_zip_some, List.map_append]
  have hvalidnil :
      (([((0 : ℚ), (none : Option ℚ))]).filterMap fun p => p.2.map fun v => (p.1, v)) =
        [] := rfl
  rw [hvalidnil, List.append_nil]
  have hzip2 : (dkr ++ [0]).zip
      (List.map
        (fun (p : ℚ × Option ℚ) => match p.2 with
          | some v => some v
          | none => pandasInterpAt (dkr.zip satv) p.1)
        (dkr.zip (satv.map some)) ++
       List.map
        (fun (p : ℚ × Option ℚ) => match p.2 with
          | some v => some v
          | none => pandasInterpAt (dkr.zip satv) p.1)
        [((0 : ℚ), (none : Option ℚ))]) =
      dkr.zip (List.map
        (fun (p : ℚ × Option ℚ) => match p.2 with
          | some v => some v
          | none => pandasInterpAt (dkr.zip satv) p.1)
        (dkr.zip (satv.map some))) ++
       [((0 : ℚ), pandasInterpAt (dkr.zip satv) 0)] :=
    List.zip_append (by simp [hlen])
  rw [hzip2, List.find?_append]
  have hnone : (dkr.zip (List.map
      (fun (p : ℚ × Option ℚ) => match p.2 with
        | some v => some v
        | none => pandasInterpAt (dkr.zip satv) p.1)
      (dkr.zip (satv.map some)))).find? (fun p => iscloseZero p.1) = none := by
    rw [List.find?_eq_none]
    intro r hr
    have hr1 : r.1 ∈ dkr := (List.of_mem_zip hr).1
    simp [iscloseZero_far r.1 (hfar r.1 hr1)]
  rw [hnone]
  have hone : (([((0 : ℚ), pandasInterpAt (dkr.zip satv) 0)]).find?
      (fun p => iscloseZero p.1)) = some ((0 : ℚ), pandasInterpAt (dkr.zip satv) 0) := by
    rw [List.find?_cons_of_pos _ (by simp [iscloseZero_zero])]
  rw [hone]
  simp only [Option.none_or]
  have hpia : pandasInterpAt (dkr.zip satv) 0 = none := by
    apply pandasInterpAt_out_of_range
    rcases hside with h | h
    · right
      intro q hq
      have := h q.1 ((List.of_mem_zip hq).1)
      linarith
    · left
      intro q hq
      have := h q.1 ((List.of_mem_zip hq).1)
      linarith
  rw [hpia]

/-- C7 (amended): `crosspoint` locates the crossing saturation by linear
interpolation of the difference column to zero (conjunct 3: the spec's
example crossing at 0.4); the sentinel `-1` (with a logged warning) is
returned exactly when the `krdiff` index contains NaN (conjunct 1); when
all differences are valid but lie strictly on one side of zero (beyond the
`np.isclose` tolerance 1e-8) — e.g. two parallel or otherwise non-crossing
segments — the appended zero row cannot be interpolated and the function
returns NaN (`none`), *not* the sentinel `-1` (conjunct 2; the claim as
frozen is refuted by `crosspoint_counterexample`). -/
theorem crosspoint_spec (sat kr1 kr2 : List (Option ℚ)) :
    ((krdiffCol kr1 kr2).any (fun d => d.isNone) = true →
      crosspoint sat kr1 kr2 = some (-1)) ∧
    ((∀ s ∈ sat, s.isSome = true) →
     (krdiffCol kr1 kr2).length = sat.length →
     ((∀ d ∈ krdiffCol kr1 kr2, ∃ x, d = some x ∧ x < -(1/10^8 : ℚ)) ∨
      ∀ d ∈ krdiffCol kr1 kr2, ∃ x, d = some x ∧ (1/10^8 : ℚ) < x) →
      crosspoint sat kr1 kr2 = none) ∧
    crosspoint [some 0, some 1] [some 0, some 1] [some (2/5), some (2/5)] =
      some (2/5) := by
  refine ⟨?_, ?_, ?_⟩
  · intro h
    simp [crosspoint, List.any_append, h]
  · intro hsat hlen hside
    have hvalid : ∀ d ∈ krdiffCol kr1 kr2, d.isNone = false := by
      rcases hside with h | h <;>
        (intro d hd; obtain ⟨x, rfl, _⟩ := h d hd; rfl)
    have hguard : ((krdiffCol kr1 kr2 ++ [some 0]).any fun d => d.isNone) = false := by
      rw [List.any_eq_false]
      intro d hd
      rcases List.mem_append.1 hd with hd' | hd'
      · simp [hvalid d hd']
      · simp only [List.mem_singleton] at hd'
        subst hd'
        simp
    unfold crosspoint
    dsimp only
    rw [hguard]
    simp only [Bool.false_eq_true, if_false]
    rw [all_isSome_eq_map sat hsat]
    apply crosspointInterp_out_of_range
    · simp [hlen]
    · rcases hside with h | h
      · left
        intro v hv
        obtain ⟨d, hd, rfl⟩ := List.mem_map.1 hv
        obtain ⟨x, rfl, hx⟩ := h d hd
        simpa using hx
      · right
        intro v hv
        obtain ⟨d, hd, rfl⟩ := List.mem_map.1 hv
        obtain ⟨x, rfl, hx⟩ := h d hd
        simpa using hx
  · have e1 : iscloseZero (-(2/5)) = false := by
      apply iscloseZero_far
      rw [abs_of_neg (by norm_num : -(2/5 : ℚ) < 0)]
      norm_num
    have e2 : iscloseZero (3/5) = false := by
      apply iscloseZero_far
      rw [abs_of_pos (by norm_num : (0 : ℚ) < 3/5)]
      norm_num
    norm_num [crosspoint, crosspointInterp, krdiffCol, optSub, pandasInterpAt, sortByFst,
      insertByFst, interpGo, e1, e2, iscloseZero_zero, List.find?, List.filterMap_cons,
      List.getLastD, List.getLast?]

/-- C7 counterexample: on the clean non-crossing pair `kr1 = [0, 0.5]`,
`kr2 = [0.1, 1.0]` over saturations `[0, 1]` the difference column is
`[-0.1, -0.5]` — no NaN, never zero — so the appended zero row stays NaN
and `crosspoint` returns NaN (`none`), not the sentinel `-1` the claim
requires whenever the crossing cannot be located. -/
theorem crosspoint_counterexample :
    crosspoint [some 0, some 1] [some 0, some (1/2)] [some (1/10), some 1] = none ∧
    (none : Option ℚ) ≠ some (-1) := by
  refine ⟨?_, by simp⟩
  have e1 : iscloseZero (-(1/10)) = false := by
    apply iscloseZero_far
    rw [abs_of_neg (by norm_num : (-(1/10) : ℚ) < 0)]
    norm_num
  have e2 : iscloseZero (-(1/2)) = false := by
    apply iscloseZero_far
    rw [abs_of_neg (by norm_num : (-(1/2) : ℚ) < 0)]
    norm_num
  norm_num [crosspoint, crosspointInterp, krdiffCol, optSub, pandasInterpAt, sortByFst,
    insertByFst, interpGo, e1, e2, iscloseZero_zero, List.find?, List.filterMap_cons,
    List.getLastD, List.getLast?]

/-- Witness for the amended C7 at a concrete non-crossing input. -/
theorem crosspoint_spec_witness :
    (∀ s ∈ ([some 0, some 1] : List (Option ℚ)), s.isSome = true) ∧
    crosspoint [some 0, some 1] [some 0, some 0] [some 1, some 2] = none :=
  ⟨by simp,
   (crosspoint_spec [some 0, some 1] [some 0, some 0] [some 1, some 2]).2.1
     (by simp)
     (by simp [krdiffCol, optSub])
     (Or.inl (by
       intro d hd
       have hform : krdiffCol [some 0, some 0] [some 1, some 2] =
           [some ((0 : ℚ) - 1), some ((0 : ℚ) - 2)] := rfl
       rw [hform] at hd
       simp only [List.mem_cons, List.not_mem_nil, or_false] at hd
       rcases hd with rfl | rfl
       · exact ⟨0 - 1, rfl, by norm_num⟩
       · exact ⟨0 - 2, rfl, by norm_num⟩))⟩
